import Mathlib

/-!
Shallow embedding of `src/Shared/mods/deathmatch/logic/lua/LuaBasic.h`
(namespace `lua` of the MTA:SA codebase): the overload family
`void lua::Push(lua_State*, T)` that marshals statically-typed host (C++)
values onto the stack of an embedded Lua interpreter.

The Lua C API itself (`lua_pushnumber`, `lua_createtable`, `lua_rawseti`,
`lua_settable`, ...) and the helper classes `CLuaArgument`, `CLuaArguments`,
and the entity/handle layer (`lua_pushelement`, `lua_pushvector`,
`lua_pushmatrix`, `EnumToString`) are external collaborators of this header;
they are modelled here from the specification's description of those
interfaces (one push = one new stack slot; tables are key/value stores).

The Lua stack is represented as a list of Lua values with the top of the
stack at the head.  A table under construction lives directly in its stack
slot, exactly as in the C API, where `lua_rawseti(L, -2, i)` /
`lua_settable(L, -3)` pop the pending value (and key) and store them into
the table sitting below them.

C++ `throw` (the `LUA_TNONE` guard) is modelled by the result `PRes.err s`,
carrying the stack state at the moment the exception propagates out of the
call; `PRes.ok s` is normal completion with resulting stack `s`.
Numeric payloads (int, unsigned int, float, double) are all pushed through
`lua_pushnumber`; their payload is modelled as an integer.
-/

/-- A value held in one slot of the Lua stack (or inside a Lua table).
`vec2`/`vec3`/`vec4`/`matrix` are the opaque vector/matrix userdata values
produced by `lua_pushvector`/`lua_pushmatrix`; `elem` is the opaque script
entity handle produced by `lua_pushelement`; payloads are identities. -/
inductive LuaVal where
  | num (n : Int)
  | bool (b : Bool)
  | nil
  | str (s : String)
  | vec2 (id : Nat)
  | vec3 (id : Nat)
  | vec4 (id : Nat)
  | matrix (id : Nat)
  | elem (id : Nat)
  | table (entries : List (LuaVal × LuaVal))

/-- The Lua stack, top first. -/
abbrev LuaStack := List LuaVal

/-- Result of one marshaling call: normal return, or a C++ exception
propagating (the `throw std::logic_error` in the `LUA_TNONE` guard),
in each case together with the stack state left behind. -/
inductive PRes where
  | ok (L : LuaStack)
  | err (L : LuaStack)

mutual
/-- Lua primitive equality on values, used for table keys. -/
def lvBeq : LuaVal → LuaVal → Bool
  | .num a, .num b => a == b
  | .bool a, .bool b => a == b
  | .nil, .nil => true
  | .str a, .str b => a == b
  | .vec2 a, .vec2 b => a == b
  | .vec3 a, .vec3 b => a == b
  | .vec4 a, .vec4 b => a == b
  | .matrix a, .matrix b => a == b
  | .elem a, .elem b => a == b
  | .table a, .table b => lvEntriesBeq a b
  | _, _ => false
termination_by a => sizeOf a

/-- Entry-list equality for `lvBeq` on tables. -/
def lvEntriesBeq : List (LuaVal × LuaVal) → List (LuaVal × LuaVal) → Bool
  | [], [] => true
  | (k1, v1) :: r1, (k2, v2) :: r2 => lvBeq k1 k2 && lvBeq v1 v2 && lvEntriesBeq r1 r2
  | _, _ => false
termination_by a => sizeOf a
end

/-- Modelled from the spec: the runtime's "store key/value pair" operation on
a table (`t[k] = v`): replace the binding of `k` if present, else append. -/
def tableSet (t : List (LuaVal × LuaVal)) (k v : LuaVal) : List (LuaVal × LuaVal) :=
  match t with
  | [] => [(k, v)]
  | (k2, v2) :: rest => if lvBeq k2 k then (k2, v) :: rest else (k2, v2) :: tableSet rest k v

/-- Table lookup `t[k]`; a missing key reads as `nil`, as in Lua. -/
def tableGet (t : List (LuaVal × LuaVal)) (k : LuaVal) : LuaVal :=
  match t with
  | [] => .nil
  | (k2, v2) :: rest => if lvBeq k2 k then v2 else tableGet rest k

/-- Modelled from the spec: external runtime primitive `lua_pushnumber`. -/
def lua_pushnumber (L : LuaStack) (n : Int) : LuaStack := .num n :: L

/-- Modelled from the spec: external runtime primitive `lua_pushboolean`. -/
def lua_pushboolean (L : LuaStack) (b : Bool) : LuaStack := .bool b :: L

/-- Modelled from the spec: external runtime primitive `lua_pushnil`. -/
def lua_pushnil (L : LuaStack) : LuaStack := .nil :: L

/-- Modelled from the spec: external runtime primitive `lua_pushlstring`
(length-prefixed string push; the runtime keeps its own copy). -/
def lua_pushlstring (L : LuaStack) (s : String) : LuaStack := .str s :: L

/-- A raw/shared/owning reference to a script entity: its identity, or null.
Null models `nullptr` / an empty smart pointer. -/
def elementVal : Option Nat → LuaVal
  | none => .nil
  | some id => .elem id

/-- Modelled from the spec: external handle-table primitive `lua_pushelement`.
A null/empty reference pushes the none value (`nil`), not a handle; a
non-null reference pushes the opaque entity handle. -/
def lua_pushelement (L : LuaStack) (p : Option Nat) : LuaStack := elementVal p :: L

/-- Modelled from the spec: external primitive `lua_pushvector` for
`CVector2D` (one opaque vector slot). -/
def lua_pushvector2D (L : LuaStack) (v : Nat) : LuaStack := .vec2 v :: L

/-- Modelled from the spec: external primitive `lua_pushvector` for
`CVector` (one opaque vector slot). -/
def lua_pushvector3D (L : LuaStack) (v : Nat) : LuaStack := .vec3 v :: L

/-- Modelled from the spec: external primitive `lua_pushvector` for
`CVector4D` (one opaque vector slot). -/
def lua_pushvector4D (L : LuaStack) (v : Nat) : LuaStack := .vec4 v :: L

/-- Modelled from the spec: external primitive `lua_pushmatrix` for
`CMatrix` (one opaque matrix slot). -/
def lua_pushmatrix (L : LuaStack) (v : Nat) : LuaStack := .matrix v :: L

/-- Modelled from the spec: `lua_newtable` pushes one fresh empty table. -/
def lua_newtable (L : LuaStack) : LuaStack := .table [] :: L

/-- Modelled from the spec: `lua_createtable` pushes one fresh empty table;
the two arguments are only capacity hints. -/
def lua_createtable (L : LuaStack) (_narr _nrec : Nat) : LuaStack := .table [] :: L

/-- `lua_rawseti(L, -2, i)` as used by the array/tuple pushers: pop the value
on top of the stack and store it at integer key `i` of the table right
below it.  (Any other stack shape is a C API misuse and never occurs in
this development.) -/
def lua_rawseti (L : LuaStack) (i : Int) : LuaStack :=
  match L with
  | v :: .table t :: rest => .table (tableSet t (.num i) v) :: rest
  | _ => L

/-- `lua_settable(L, -3)` as used by the vector/map pushers: pop the value
and the key on top of the stack and store the pair into the table right
below them. -/
def lua_settable (L : LuaStack) : LuaStack :=
  match L with
  | v :: k :: .table t :: rest => .table (tableSet t k v) :: rest
  | _ => L

/-- Lua type tag `LUA_TNONE` ("no value"). -/
def LUA_TNONE : Int := -1

/-- Modelled from the spec: the external generic value wrapper
`CLuaArgument` — a runtime-tagged value.  `argtype` is what `GetType()`
returns; `value` is the single Lua value that its own `Push` member
(the spec's `PushSelf`) places on the stack. -/
structure CLuaArgument where
  argtype : Int
  value : LuaVal

/-- `CLuaArgument::GetType()`. -/
def CLuaArgument.GetType (a : CLuaArgument) : Int := a.argtype

/-- Modelled from the spec: `CLuaArgument::Push(L)` pushes the wrapper's own
value as exactly one stack slot. -/
def CLuaArgument.Push (a : CLuaArgument) (L : LuaStack) : LuaStack := a.value :: L

/-- Sequential integer keys `i, i+1, ...` paired with the given values:
the contents of an indexed Lua table holding `ws` starting at key `i`. -/
def indexedEntries (i : Int) : List LuaVal → List (LuaVal × LuaVal)
  | [] => []
  | w :: ws => (.num i, w) :: indexedEntries (i + 1) ws

/-- Modelled from the spec: the external ordered list of generic values
`CLuaArguments`; `values` are the Lua values of its elements in order. -/
structure CLuaArguments where
  values : List LuaVal

/-- Modelled from the spec: `CLuaArguments::PushAsTable(L)` pushes one
indexed table holding the list's elements at keys 1..n. -/
def CLuaArguments.PushAsTable (a : CLuaArguments) (L : LuaStack) : LuaStack :=
  .table (indexedEntries 1 a.values) :: L

/-- `std::shared_ptr<T>` for a script entity type `T`: shared ownership of
the identified object, or empty. -/
structure SharedPtr where
  ptr : Option Nat

/-- `shared_ptr::get()`: observe the raw pointer; ownership unchanged. -/
def SharedPtr.get (p : SharedPtr) : Option Nat := p.ptr

/-- `std::unique_ptr<T>` for a script entity type `T`: sole ownership of
the identified object, or empty. -/
structure UniquePtr where
  ptr : Option Nat

/-- `unique_ptr::get()`: observe the raw pointer; ownership unchanged. -/
def UniquePtr.get (p : UniquePtr) : Option Nat := p.ptr

/-- `unique_ptr::release()`: give up ownership (what `Push` would have to
call to transfer ownership — it never does). -/
def UniquePtr.release (p : UniquePtr) : Option Nat × UniquePtr := (p.ptr, ⟨none⟩)

/-- A host (C++) value of one of the types accepted by the `lua::Push`
overload family of `LuaBasic.h`.  Each constructor corresponds to one
overload; composite constructors nest arbitrary host values, mirroring the
template recursion.  Numeric payloads are modelled as integers; geometric
values and enum values carry what the external collaborators produce for
them (an identity, resp. the `EnumToString` name). -/
inductive HostVal where
  | hInt (v : Int)
  | hUInt (v : Nat)
  | hFloat (v : Int)
  | hDouble (v : Int)
  | hBool (b : Bool)
  | hNullptr
  | hString (s : String)
  | hLuaArgument (a : CLuaArgument)
  | hLuaArguments (a : CLuaArguments)
  | hCVector2D (v : Nat)
  | hCVector (v : Nat)
  | hCVector4D (v : Nat)
  | hCMatrix (v : Nat)
  | hEnum (name : String)
  | hPtr (p : Option Nat)
  | hSharedPtr (p : SharedPtr)
  | hUniquePtr (p : UniquePtr)
  | hVariant (held : HostVal)
  | hOptional (v : Option HostVal)
  | hArray (es : List HostVal)
  | hVector (es : List HostVal)
  | hMap (kvs : List (HostVal × HostVal))
  | hTuple (es : List HostVal)

mutual
/-- The dispatch entry point `lua::Push(lua_State* L, v)` of `LuaBasic.h`:
one arm per overload, in source order.  `hEnum` carries the result of the
external `EnumToString`, whose push through the `std::string` overload is
`lua_pushlstring`; `Push(L, int)` inside the vector loop is likewise
written as its body `lua_pushnumber`. -/
def Push (L : LuaStack) : HostVal → PRes
  | .hInt v => .ok (lua_pushnumber L v)
  | .hUInt v => .ok (lua_pushnumber L v)
  | .hFloat v => .ok (lua_pushnumber L v)
  | .hDouble v => .ok (lua_pushnumber L v)
  | .hBool b => .ok (lua_pushboolean L b)
  | .hNullptr => .ok (lua_pushnil L)
  | .hString s => .ok (lua_pushlstring L s)
  | .hLuaArgument a =>
      if a.GetType = LUA_TNONE then
        -- throw std::logic_error("lua::Push")
        .err L
      else
        .ok (a.Push L)
  | .hLuaArguments a => .ok (a.PushAsTable L)
  | .hCVector2D v => .ok (lua_pushvector2D L v)
  | .hCVector v => .ok (lua_pushvector3D L v)
  | .hCVector4D v => .ok (lua_pushvector4D L v)
  | .hCMatrix v => .ok (lua_pushmatrix L v)
  | .hEnum name => .ok (lua_pushlstring L name)
  | .hPtr p => .ok (lua_pushelement L p)
  | .hSharedPtr p => .ok (lua_pushelement L p.get)
  | .hUniquePtr p => .ok (lua_pushelement L p.get)
  | .hVariant held => Push L held
  | .hOptional none => Push L .hNullptr
  | .hOptional (some v) => Push L v
  | .hArray es => pushArrayLoop (lua_createtable L es.length 0) 1 es
  | .hVector es => pushVectorLoop (lua_newtable L) 1 es
  | .hMap kvs => pushMapLoop (lua_newtable L) kvs
  | .hTuple es => pushTupleLoop (lua_createtable L es.length 0) 1 es
termination_by v => sizeOf v

/-- Loop body of `Push(lua_State*, const std::array<T, N>&)`:
`Push(L, v); lua_rawseti(L, -2, i++);` per element. -/
def pushArrayLoop (L : LuaStack) (i : Int) : List HostVal → PRes
  | [] => .ok L
  | v :: rest =>
    match Push L v with
    | .err L2 => .err L2
    | .ok L2 => pushArrayLoop (lua_rawseti L2 i) (i + 1) rest
termination_by es => sizeOf es

/-- Loop body of `Push(lua_State*, const std::vector<T>&)`:
`Push(L, i++); Push(L, v); lua_settable(L, -3);` per element
(the key push `Push(L, int)` is `lua_pushnumber`). -/
def pushVectorLoop (L : LuaStack) (i : Int) : List HostVal → PRes
  | [] => .ok L
  | v :: rest =>
    match Push (lua_pushnumber L i) v with
    | .err L2 => .err L2
    | .ok L2 => pushVectorLoop (lua_settable L2) (i + 1) rest
termination_by es => sizeOf es

/-- Loop body of `Push(lua_State*, const std::unordered_map<K, V>&)`:
`Push(L, k); Push(L, v); lua_settable(L, -3);` per entry. -/
def pushMapLoop (L : LuaStack) : List (HostVal × HostVal) → PRes
  | [] => .ok L
  | (k, v) :: rest =>
    match Push L k with
    | .err L2 => .err L2
    | .ok L1 =>
      match Push L1 v with
      | .err L2 => .err L2
      | .ok L2 => pushMapLoop (lua_settable L2) rest
termination_by kvs => sizeOf kvs

/-- Loop body of the `PushTable` lambda in
`Push(lua_State*, const std::tuple<Ts...>&)`:
`Push(L, value); lua_rawseti(L, -2, key++);` per component. -/
def pushTupleLoop (L : LuaStack) (key : Int) : List HostVal → PRes
  | [] => .ok L
  | v :: rest =>
    match Push L v with
    | .err L2 => .err L2
    | .ok L2 => pushTupleLoop (lua_rawseti L2 key) (key + 1) rest
termination_by es => sizeOf es
end

/-- Accumulate values into a table at sequential integer keys starting at
`i`, via `tableSet` — the table contents built by the array/tuple/vector
loops when every element push succeeds. -/
def setIndexed (t : List (LuaVal × LuaVal)) (i : Int) : List LuaVal → List (LuaVal × LuaVal)
  | [] => t
  | w :: ws => setIndexed (tableSet t (.num i) w) (i + 1) ws

/-- Accumulate key/value pairs into a table via `tableSet` — the table
contents built by the map loop when every push succeeds. -/
def setPairs (t : List (LuaVal × LuaVal)) : List (LuaVal × LuaVal) → List (LuaVal × LuaVal)
  | [] => t
  | (k, w) :: ps => setPairs (tableSet t k w) ps

mutual
/-- The denotation of one `Push` call: the single Lua value the call leaves
on top of the stack on normal completion, or `none` when the call throws
(a nested `LUA_TNONE`-tagged `CLuaArgument`). -/
def pushVal : HostVal → Option LuaVal
  | .hInt v => some (.num v)
  | .hUInt v => some (.num v)
  | .hFloat v => some (.num v)
  | .hDouble v => some (.num v)
  | .hBool b => some (.bool b)
  | .hNullptr => some .nil
  | .hString s => some (.str s)
  | .hLuaArgument a => if a.GetType = LUA_TNONE then none else some a.value
  | .hLuaArguments a => some (.table (indexedEntries 1 a.values))
  | .hCVector2D v => some (.vec2 v)
  | .hCVector v => some (.vec3 v)
  | .hCVector4D v => some (.vec4 v)
  | .hCMatrix v => some (.matrix v)
  | .hEnum name => some (.str name)
  | .hPtr p => some (elementVal p)
  | .hSharedPtr p => some (elementVal p.get)
  | .hUniquePtr p => some (elementVal p.get)
  | .hVariant held => pushVal held
  | .hOptional none => some .nil
  | .hOptional (some v) => pushVal v
  | .hArray es => (pushVals es).map fun ws => .table (setIndexed [] 1 ws)
  | .hVector es => (pushVals es).map fun ws => .table (setIndexed [] 1 ws)
  | .hMap kvs => (pushValPairs kvs).map fun ps => .table (setPairs [] ps)
  | .hTuple es => (pushVals es).map fun ws => .table (setIndexed [] 1 ws)
termination_by v => sizeOf v

/-- Denotations of a list of element pushes; `none` as soon as one throws. -/
def pushVals : List HostVal → Option (List LuaVal)
  | [] => some []
  | v :: vs =>
    match pushVal v, pushVals vs with
    | some w, some ws => some (w :: ws)
    | _, _ => none
termination_by es => sizeOf es

/-- Denotations of a list of key/value pushes; `none` as soon as one throws. -/
def pushValPairs : List (HostVal × HostVal) → Option (List (LuaVal × LuaVal))
  | [] => some []
  | (k, v) :: rest =>
    match pushVal k, pushVal v, pushValPairs rest with
    | some wk, some wv, some ws => some ((wk, wv) :: ws)
    | _, _, _ => none
termination_by kvs => sizeOf kvs
end

mutual
/-- A host value contains no `CLuaArgument` tagged `LUA_TNONE` anywhere —
in particular, every value of the claim's type family (scalar, enum,
reference, optional, variant, array, vector, map, tuple) with the same
property at its elements. -/
def wrapperSafe : HostVal → Bool
  | .hLuaArgument a => !(a.GetType == LUA_TNONE)
  | .hVariant held => wrapperSafe held
  | .hOptional none => true
  | .hOptional (some v) => wrapperSafe v
  | .hArray es => wrapperSafeList es
  | .hVector es => wrapperSafeList es
  | .hMap kvs => wrapperSafePairs kvs
  | .hTuple es => wrapperSafeList es
  | _ => true
termination_by v => sizeOf v

/-- `wrapperSafe` over a list of elements. -/
def wrapperSafeList : List HostVal → Bool
  | [] => true
  | v :: vs => wrapperSafe v && wrapperSafeList vs
termination_by es => sizeOf es

/-- `wrapperSafe` over a list of key/value pairs. -/
def wrapperSafePairs : List (HostVal × HostVal) → Bool
  | [] => true
  | (k, v) :: rest => wrapperSafe k && wrapperSafe v && wrapperSafePairs rest
termination_by kvs => sizeOf kvs
end

/-- State-threaded reading of `Push(lua_State*, const std::shared_ptr<T>&)`:
the host argument is taken by const reference and the body only calls
`ptr.get()`, so the host value handed back after the call is the argument
itself. -/
def PushSharedPtrWithHost (L : LuaStack) (p : SharedPtr) : LuaStack × SharedPtr :=
  (lua_pushelement L p.get, p)

/-- State-threaded reading of `Push(lua_State*, const std::unique_ptr<T>&)`:
the body only calls `ptr.get()` (never `ptr.release()`), so the host value
handed back after the call is the argument itself. -/
def PushUniquePtrWithHost (L : LuaStack) (p : UniquePtr) : LuaStack × UniquePtr :=
  (lua_pushelement L p.get, p)

/-- Agreement between `Push` and its denotation `pushVal`: on any starting
stack, a `some w` denotation means normal completion pushing exactly the
slot `w`, and a `none` denotation means the call throws. -/
def PushAgrees (v : HostVal) : Prop :=
  ∀ L : LuaStack,
    (∀ w, pushVal v = some w → Push L v = .ok (w :: L)) ∧
    (pushVal v = none → ∃ L2, Push L v = .err L2)

theorem pushAgrees_of_fixed (v : HostVal) (w : LuaVal) (hval : pushVal v = some w)
    (hpush : ∀ L, Push L v = .ok (w :: L)) : PushAgrees v := by
  intro L
  constructor
  · intro w2 hw2
    rw [hval] at hw2
    have hww : w = w2 := Option.some.inj hw2
    subst hww
    exact hpush L
  · intro h
    rw [hval] at h
    exact absurd h (by simp)

theorem pushAgrees_of_eq (v v2 : HostVal) (hp : ∀ L, Push L v = Push L v2)
    (hv : pushVal v = pushVal v2) (h : PushAgrees v2) : PushAgrees v := by
  intro L
  constructor
  · intro w hw
    rw [hp L]
    exact (h L).1 w (hv ▸ hw)
  · intro hn
    rw [hp L]
    exact (h L).2 (hv ▸ hn)

theorem pushArrayLoop_agrees : ∀ (es : List HostVal), (∀ e ∈ es, PushAgrees e) →
    ∀ (i : Int) (t : List (LuaVal × LuaVal)) (L : LuaStack),
      (∀ ws, pushVals es = some ws →
        pushArrayLoop (.table t :: L) i es = .ok (.table (setIndexed t i ws) :: L)) ∧
      (pushVals es = none → ∃ L2, pushArrayLoop (.table t :: L) i es = .err L2) := by
  intro es
  induction es with
  | nil =>
    intro _ i t L
    constructor
    · intro ws hws
      simp [pushVals] at hws
      subst hws
      simp [pushArrayLoop, setIndexed]
    · intro h
      simp [pushVals] at h
  | cons e rest ih =>
    intro H i t L
    have he := H e (by simp)
    have Hrest : ∀ x ∈ rest, PushAgrees x := fun x hx => H x (by simp [hx])
    constructor
    · intro ws hws
      cases hpe : pushVal e with
      | none => simp [pushVals, hpe] at hws
      | some w =>
        cases hpr : pushVals rest with
        | none => simp [pushVals, hpe, hpr] at hws
        | some wsr =>
          have hws2 : w :: wsr = ws := by simp [pushVals, hpe, hpr] at hws; exact hws
          subst hws2
          have hPush : Push (.table t :: L) e = .ok (w :: .table t :: L) :=
            (he (.table t :: L)).1 w hpe
          have hstep : pushArrayLoop (.table t :: L) i (e :: rest) =
              pushArrayLoop (.table (tableSet t (.num i) w) :: L) (i + 1) rest := by
            simp [pushArrayLoop, hPush, lua_rawseti]
          rw [hstep, (ih Hrest (i + 1) (tableSet t (.num i) w) L).1 wsr hpr]
          simp [setIndexed]
    · intro h
      cases hpe : pushVal e with
      | none =>
        obtain ⟨L2, hL2⟩ := (he (.table t :: L)).2 hpe
        exact ⟨L2, by simp [pushArrayLoop, hL2]⟩
      | some w =>
        cases hpr : pushVals rest with
        | some wsr => simp [pushVals, hpe, hpr] at h
        | none =>
          have hPush : Push (.table t :: L) e = .ok (w :: .table t :: L) :=
            (he (.table t :: L)).1 w hpe
          obtain ⟨L2, hL2⟩ := (ih Hrest (i + 1) (tableSet t (.num i) w) L).2 hpr
          refine ⟨L2, ?_⟩
          rw [show pushArrayLoop (.table t :: L) i (e :: rest) =
              pushArrayLoop (.table (tableSet t (.num i) w) :: L) (i + 1) rest by
            simp [pushArrayLoop, hPush, lua_rawseti]]
          exact hL2

theorem pushTupleLoop_agrees : ∀ (es : List HostVal), (∀ e ∈ es, PushAgrees e) →
    ∀ (i : Int) (t : List (LuaVal × LuaVal)) (L : LuaStack),
      (∀ ws, pushVals es = some ws →
        pushTupleLoop (.table t :: L) i es = .ok (.table (setIndexed t i ws) :: L)) ∧
      (pushVals es = none → ∃ L2, pushTupleLoop (.table t :: L) i es = .err L2) := by
  intro es
  induction es with
  | nil =>
    intro _ i t L
    constructor
    · intro ws hws
      simp [pushVals] at hws
      subst hws
      simp [pushTupleLoop, setIndexed]
    · intro h
      simp [pushVals] at h
  | cons e rest ih =>
    intro H i t L
    have he := H e (by simp)
    have Hrest : ∀ x ∈ rest, PushAgrees x := fun x hx => H x (by simp [hx])
    constructor
    · intro ws hws
      cases hpe : pushVal e with
      | none => simp [pushVals, hpe] at hws
      | some w =>
        cases hpr : pushVals rest with
        | none => simp [pushVals, hpe, hpr] at hws
        | some wsr =>
          have hws2 : w :: wsr = ws := by simp [pushVals, hpe, hpr] at hws; exact hws
          subst hws2
          have hPush : Push (.table t :: L) e = .ok (w :: .table t :: L) :=
            (he (.table t :: L)).1 w hpe
          have hstep : pushTupleLoop (.table t :: L) i (e :: rest) =
              pushTupleLoop (.table (tableSet t (.num i) w) :: L) (i + 1) rest := by
            simp [pushTupleLoop, hPush, lua_rawseti]
          rw [hstep, (ih Hrest (i + 1) (tableSet t (.num i) w) L).1 wsr hpr]
          simp [setIndexed]
    · intro h
      cases hpe : pushVal e with
      | none =>
        obtain ⟨L2, hL2⟩ := (he (.table t :: L)).2 hpe
        exact ⟨L2, by simp [pushTupleLoop, hL2]⟩
      | some w =>
        cases hpr : pushVals rest with
        | some wsr => simp [pushVals, hpe, hpr] at h
        | none =>
          have hPush : Push (.table t :: L) e = .ok (w :: .table t :: L) :=
            (he (.table t :: L)).1 w hpe
          obtain ⟨L2, hL2⟩ := (ih Hrest (i + 1) (tableSet t (.num i) w) L).2 hpr
          refine ⟨L2, ?_⟩
          rw [show pushTupleLoop (.table t :: L) i (e :: rest) =
              pushTupleLoop (.table (tableSet t (.num i) w) :: L) (i + 1) rest by
            simp [pushTupleLoop, hPush, lua_rawseti]]
          exact hL2

theorem pushVectorLoop_agrees : ∀ (es : List HostVal), (∀ e ∈ es, PushAgrees e) →
    ∀ (i : Int) (t : List (LuaVal × LuaVal)) (L : LuaStack),
      (∀ ws, pushVals es = some ws →
        pushVectorLoop (.table t :: L) i es = .ok (.table (setIndexed t i ws) :: L)) ∧
      (pushVals es = none → ∃ L2, pushVectorLoop (.table t :: L) i es = .err L2) := by
  intro es
  induction es with
  | nil =>
    intro _ i t L
    constructor
    · intro ws hws
      simp [pushVals] at hws
      subst hws
      simp [pushVectorLoop, setIndexed]
    · intro h
      simp [pushVals] at h
  | cons e rest ih =>
    intro H i t L
    have he := H e (by simp)
    have Hrest : ∀ x ∈ rest, PushAgrees x := fun x hx => H x (by simp [hx])
    constructor
    · intro ws hws
      cases hpe : pushVal e with
      | none => simp [pushVals, hpe] at hws
      | some w =>
        cases hpr : pushVals rest with
        | none => simp [pushVals, hpe, hpr] at hws
        | some wsr =>
          have hws2 : w :: wsr = ws := by simp [pushVals, hpe, hpr] at hws; exact hws
          subst hws2
          have hPush : Push (.num i :: .table t :: L) e = .ok (w :: .num i :: .table t :: L) :=
            (he (.num i :: .table t :: L)).1 w hpe
          have hstep : pushVectorLoop (.table t :: L) i (e :: rest) =
              pushVectorLoop (.table (tableSet t (.num i) w) :: L) (i + 1) rest := by
            simp [pushVectorLoop, lua_pushnumber, hPush, lua_settable]
          rw [hstep, (ih Hrest (i + 1) (tableSet t (.num i) w) L).1 wsr hpr]
          simp [setIndexed]
    · intro h
      cases hpe : pushVal e with
      | none =>
        obtain ⟨L2, hL2⟩ := (he (.num i :: .table t :: L)).2 hpe
        exact ⟨L2, by simp [pushVectorLoop, lua_pushnumber, hL2]⟩
      | some w =>
        cases hpr : pushVals rest with
        | some wsr => simp [pushVals, hpe, hpr] at h
        | none =>
          have hPush : Push (.num i :: .table t :: L) e = .ok (w :: .num i :: .table t :: L) :=
            (he (.num i :: .table t :: L)).1 w hpe
          obtain ⟨L2, hL2⟩ := (ih Hrest (i + 1) (tableSet t (.num i) w) L).2 hpr
          refine ⟨L2, ?_⟩
          rw [show pushVectorLoop (.table t :: L) i (e :: rest) =
              pushVectorLoop (.table (tableSet t (.num i) w) :: L) (i + 1) rest by
            simp [pushVectorLoop, lua_pushnumber, hPush, lua_settable]]
          exact hL2

theorem pushMapLoop_agrees : ∀ (kvs : List (HostVal × HostVal)),
    (∀ kv ∈ kvs, PushAgrees kv.1 ∧ PushAgrees kv.2) →
    ∀ (t : List (LuaVal × LuaVal)) (L : LuaStack),
      (∀ ps, pushValPairs kvs = some ps →
        pushMapLoop (.table t :: L) kvs = .ok (.table (setPairs t ps) :: L)) ∧
      (pushValPairs kvs = none → ∃ L2, pushMapLoop (.table t :: L) kvs = .err L2) := by
  intro kvs
  induction kvs with
  | nil =>
    intro _ t L
    constructor
    · intro ps hps
      simp [pushValPairs] at hps
      subst hps
      simp [pushMapLoop, setPairs]
    · intro h
      simp [pushValPairs] at h
  | cons kv rest ih =>
    intro H t L
    obtain ⟨k, v⟩ := kv
    have hk := (H (k, v) (by simp)).1
    have hv := (H (k, v) (by simp)).2
    have Hrest : ∀ x ∈ rest, PushAgrees x.1 ∧ PushAgrees x.2 := fun x hx => H x (by simp [hx])
    constructor
    · intro ps hps
      cases hpk : pushVal k with
      | none => simp [pushValPairs, hpk] at hps
      | some wk =>
        cases hpv : pushVal v with
        | none => simp [pushValPairs, hpk, hpv] at hps
        | some wv =>
          cases hpr : pushValPairs rest with
          | none => simp [pushValPairs, hpk, hpv, hpr] at hps
          | some psr =>
            have hps2 : (wk, wv) :: psr = ps := by
              simp [pushValPairs, hpk, hpv, hpr] at hps; exact hps
            subst hps2
            have hPushK : Push (.table t :: L) k = .ok (wk :: .table t :: L) :=
              (hk (.table t :: L)).1 wk hpk
            have hPushV : Push (wk :: .table t :: L) v = .ok (wv :: wk :: .table t :: L) :=
              (hv (wk :: .table t :: L)).1 wv hpv
            have hstep : pushMapLoop (.table t :: L) ((k, v) :: rest) =
                pushMapLoop (.table (tableSet t wk wv) :: L) rest := by
              simp [pushMapLoop, hPushK, hPushV, lua_settable]
            rw [hstep, (ih Hrest (tableSet t wk wv) L).1 psr hpr]
            simp [setPairs]
    · intro h
      cases hpk : pushVal k with
      | none =>
        obtain ⟨L2, hL2⟩ := (hk (.table t :: L)).2 hpk
        exact ⟨L2, by simp [pushMapLoop, hL2]⟩
      | some wk =>
        have hPushK : Push (.table t :: L) k = .ok (wk :: .table t :: L) :=
          (hk (.table t :: L)).1 wk hpk
        cases hpv : pushVal v with
        | none =>
          obtain ⟨L2, hL2⟩ := (hv (wk :: .table t :: L)).2 hpv
          exact ⟨L2, by simp [pushMapLoop, hPushK, hL2]⟩
        | some wv =>
          cases hpr : pushValPairs rest with
          | some psr => simp [pushValPairs, hpk, hpv, hpr] at h
          | none =>
            have hPushV : Push (wk :: .table t :: L) v = .ok (wv :: wk :: .table t :: L) :=
              (hv (wk :: .table t :: L)).1 wv hpv
            obtain ⟨L2, hL2⟩ := (ih Hrest (tableSet t wk wv) L).2 hpr
            refine ⟨L2, ?_⟩
            rw [show pushMapLoop (.table t :: L) ((k, v) :: rest) =
                pushMapLoop (.table (tableSet t wk wv) :: L) rest by
              simp [pushMapLoop, hPushK, hPushV, lua_settable]]
            exact hL2

theorem pushAgrees_aux : ∀ (n : Nat) (v : HostVal), sizeOf v ≤ n → PushAgrees v := by
  intro n
  induction n with
  | zero =>
    intro v h
    exfalso
    cases v <;> simp at h
  | succ n ih =>
    intro v hv
    cases v with
    | hInt x =>
      exact pushAgrees_of_fixed _ (.num x) (by simp [pushVal])
        (fun L => by simp [Push, lua_pushnumber])
    | hUInt x =>
      exact pushAgrees_of_fixed _ (.num (x : Int)) (by simp [pushVal])
        (fun L => by simp [Push, lua_pushnumber])
    | hFloat x =>
      exact pushAgrees_of_fixed _ (.num x) (by simp [pushVal])
        (fun L => by simp [Push, lua_pushnumber])
    | hDouble x =>
      exact pushAgrees_of_fixed _ (.num x) (by simp [pushVal])
        (fun L => by simp [Push, lua_pushnumber])
    | hBool b =>
      exact pushAgrees_of_fixed _ (.bool b) (by simp [pushVal])
        (fun L => by simp [Push, lua_pushboolean])
    | hNullptr =>
      exact pushAgrees_of_fixed _ .nil (by simp [pushVal])
        (fun L => by simp [Push, lua_pushnil])
    | hString s =>
      exact pushAgrees_of_fixed _ (.str s) (by simp [pushVal])
        (fun L => by simp [Push, lua_pushlstring])
    | hLuaArgument a =>
      by_cases hta : a.GetType = LUA_TNONE
      · intro L
        constructor
        · intro w hw
          simp [pushVal, hta] at hw
        · intro _
          exact ⟨L, by simp [Push, hta]⟩
      · exact pushAgrees_of_fixed _ a.value (by simp [pushVal, hta])
          (fun L => by simp [Push, hta, CLuaArgument.Push])
    | hLuaArguments a =>
      exact pushAgrees_of_fixed _ (.table (indexedEntries 1 a.values)) (by simp [pushVal])
        (fun L => by simp [Push, CLuaArguments.PushAsTable])
    | hCVector2D x =>
      exact pushAgrees_of_fixed _ (.vec2 x) (by simp [pushVal])
        (fun L => by simp [Push, lua_pushvector2D])
    | hCVector x =>
      exact pushAgrees_of_fixed _ (.vec3 x) (by simp [pushVal])
        (fun L => by simp [Push, lua_pushvector3D])
    | hCVector4D x =>
      exact pushAgrees_of_fixed _ (.vec4 x) (by simp [pushVal])
        (fun L => by simp [Push, lua_pushvector4D])
    | hCMatrix x =>
      exact pushAgrees_of_fixed _ (.matrix x) (by simp [pushVal])
        (fun L => by simp [Push, lua_pushmatrix])
    | hEnum s =>
      exact pushAgrees_of_fixed _ (.str s) (by simp [pushVal])
        (fun L => by simp [Push, lua_pushlstring])
    | hPtr p =>
      exact pushAgrees_of_fixed _ (elementVal p) (by simp [pushVal])
        (fun L => by simp [Push, lua_pushelement])
    | hSharedPtr p =>
      exact pushAgrees_of_fixed _ (elementVal p.get) (by simp [pushVal])
        (fun L => by simp [Push, lua_pushelement])
    | hUniquePtr p =>
      exact pushAgrees_of_fixed _ (elementVal p.get) (by simp [pushVal])
        (fun L => by simp [Push, lua_pushelement])
    | hVariant held =>
      have hsz : sizeOf held ≤ n := by simp at hv; omega
      exact pushAgrees_of_eq _ held (fun L => by simp [Push]) (by simp [pushVal]) (ih held hsz)
    | hOptional o =>
      cases o with
      | none =>
        exact pushAgrees_of_fixed _ .nil (by simp [pushVal])
          (fun L => by simp [Push, lua_pushnil])
      | some v2 =>
        have hsz : sizeOf v2 ≤ n := by simp at hv; omega
        exact pushAgrees_of_eq _ v2 (fun L => by simp [Push]) (by simp [pushVal]) (ih v2 hsz)
    | hArray es =>
      have H : ∀ e ∈ es, PushAgrees e := by
        intro e he
        have h1 := List.sizeOf_lt_of_mem he
        simp at hv
        exact ih e (by omega)
      intro L
      constructor
      · intro w hw
        rw [show pushVal (.hArray es) = (pushVals es).map fun ws => .table (setIndexed [] 1 ws)
          from by simp [pushVal]] at hw
        rw [Option.map_eq_some'] at hw
        obtain ⟨ws, hws, rfl⟩ := hw
        have := (pushArrayLoop_agrees es H 1 [] L).1 ws hws
        simpa [Push, lua_createtable] using this
      · intro hnone
        rw [show pushVal (.hArray es) = (pushVals es).map fun ws => .table (setIndexed [] 1 ws)
          from by simp [pushVal]] at hnone
        rw [Option.map_eq_none'] at hnone
        obtain ⟨L2, h2⟩ := (pushArrayLoop_agrees es H 1 [] L).2 hnone
        exact ⟨L2, by simpa [Push, lua_createtable] using h2⟩
    | hVector es =>
      have H : ∀ e ∈ es, PushAgrees e := by
        intro e he
        have h1 := List.sizeOf_lt_of_mem he
        simp at hv
        exact ih e (by omega)
      intro L
      constructor
      · intro w hw
        rw [show pushVal (.hVector es) = (pushVals es).map fun ws => .table (setIndexed [] 1 ws)
          from by simp [pushVal]] at hw
        rw [Option.map_eq_some'] at hw
        obtain ⟨ws, hws, rfl⟩ := hw
        have := (pushVectorLoop_agrees es H 1 [] L).1 ws hws
        simpa [Push, lua_newtable] using this
      · intro hnone
        rw [show pushVal (.hVector es) = (pushVals es).map fun ws => .table (setIndexed [] 1 ws)
          from by simp [pushVal]] at hnone
        rw [Option.map_eq_none'] at hnone
        obtain ⟨L2, h2⟩ := (pushVectorLoop_agrees es H 1 [] L).2 hnone
        exact ⟨L2, by simpa [Push, lua_newtable] using h2⟩
    | hMap kvs =>
      have H : ∀ kv ∈ kvs, PushAgrees kv.1 ∧ PushAgrees kv.2 := by
        intro kv hkv
        have h1 := List.sizeOf_lt_of_mem hkv
        simp at hv
        obtain ⟨k, v2⟩ := kv
        simp at h1
        exact ⟨ih k (by omega), ih v2 (by omega)⟩
      intro L
      constructor
      · intro w hw
        rw [show pushVal (.hMap kvs) = (pushValPairs kvs).map fun ps => .table (setPairs [] ps)
          from by simp [pushVal]] at hw
        rw [Option.map_eq_some'] at hw
        obtain ⟨ps, hps, rfl⟩ := hw
        have := (pushMapLoop_agrees kvs H [] L).1 ps hps
        simpa [Push, lua_newtable] using this
      · intro hnone
        rw [show pushVal (.hMap kvs) = (pushValPairs kvs).map fun ps => .table (setPairs [] ps)
          from by simp [pushVal]] at hnone
        rw [Option.map_eq_none'] at hnone
        obtain ⟨L2, h2⟩ := (pushMapLoop_agrees kvs H [] L).2 hnone
        exact ⟨L2, by simpa [Push, lua_newtable] using h2⟩
    | hTuple es =>
      have H : ∀ e ∈ es, PushAgrees e := by
        intro e he
        have h1 := List.sizeOf_lt_of_mem he
        simp at hv
        exact ih e (by omega)
      intro L
      constructor
      · intro w hw
        rw [show pushVal (.hTuple es) = (pushVals es).map fun ws => .table (setIndexed [] 1 ws)
          from by simp [pushVal]] at hw
        rw [Option.map_eq_some'] at hw
        obtain ⟨ws, hws, rfl⟩ := hw
        have := (pushTupleLoop_agrees es H 1 [] L).1 ws hws
        simpa [Push, lua_createtable] using this
      · intro hnone
        rw [show pushVal (.hTuple es) = (pushVals es).map fun ws => .table (setIndexed [] 1 ws)
          from by simp [pushVal]] at hnone
        rw [Option.map_eq_none'] at hnone
        obtain ⟨L2, h2⟩ := (pushTupleLoop_agrees es H 1 [] L).2 hnone
        exact ⟨L2, by simpa [Push, lua_createtable] using h2⟩

theorem pushAgrees_all (v : HostVal) : PushAgrees v :=
  pushAgrees_aux (sizeOf v) v le_rfl

theorem push_ok_val {v : HostVal} {w : LuaVal} (h : pushVal v = some w) (L : LuaStack) :
    Push L v = PRes.ok (w :: L) :=
  (pushAgrees_all v L).1 w h

theorem push_err_total {v : HostVal} (h : pushVal v = none) (L : LuaStack) :
    ∃ L2, Push L v = PRes.err L2 :=
  (pushAgrees_all v L).2 h

theorem push_ok_elim {v : HostVal} {L L2 : LuaStack} (h : Push L v = PRes.ok L2) :
    ∃ w, pushVal v = some w ∧ L2 = w :: L := by
  cases hv : pushVal v with
  | some w =>
    have h2 := push_ok_val hv L
    rw [h] at h2
    injection h2 with h3
    exact ⟨w, rfl, h3⟩
  | none =>
    obtain ⟨L3, h3⟩ := push_err_total hv L
    rw [h] at h3
    exact absurd h3 (by simp)

theorem pushVals_isSome_of_safe : ∀ (es : List HostVal),
    (∀ e ∈ es, wrapperSafe e = true → ∃ w, pushVal e = some w) →
    wrapperSafeList es = true → ∃ ws, pushVals es = some ws := by
  intro es
  induction es with
  | nil =>
    intro _ _
    exact ⟨[], by simp [pushVals]⟩
  | cons e rest ih =>
    intro H hs
    rw [wrapperSafeList] at hs
    simp only [Bool.and_eq_true] at hs
    obtain ⟨w, hw⟩ := H e (by simp) hs.1
    obtain ⟨ws, hws⟩ := ih (fun x hx => H x (by simp [hx])) hs.2
    exact ⟨w :: ws, by simp [pushVals, hw, hws]⟩

theorem pushValPairs_isSome_of_safe : ∀ (kvs : List (HostVal × HostVal)),
    (∀ kv ∈ kvs, (wrapperSafe kv.1 = true → ∃ w, pushVal kv.1 = some w) ∧
      (wrapperSafe kv.2 = true → ∃ w, pushVal kv.2 = some w)) →
    wrapperSafePairs kvs = true → ∃ ps, pushValPairs kvs = some ps := by
  intro kvs
  induction kvs with
  | nil =>
    intro _ _
    exact ⟨[], by simp [pushValPairs]⟩
  | cons kv rest ih =>
    intro H hs
    obtain ⟨k, v⟩ := kv
    rw [wrapperSafePairs] at hs
    simp only [Bool.and_eq_true] at hs
    obtain ⟨wk, hwk⟩ := (H (k, v) (by simp)).1 hs.1.1
    obtain ⟨wv, hwv⟩ := (H (k, v) (by simp)).2 hs.1.2
    obtain ⟨ps, hps⟩ := ih (fun x hx => H x (by simp [hx])) hs.2
    exact ⟨(wk, wv) :: ps, by simp [pushValPairs, hwk, hwv, hps]⟩

theorem wrapperSafe_pushVal_aux : ∀ (n : Nat) (v : HostVal), sizeOf v ≤ n →
    wrapperSafe v = true → ∃ w, pushVal v = some w := by
  intro n
  induction n with
  | zero =>
    intro v h
    exfalso
    cases v <;> simp at h
  | succ n ih =>
    intro v hv hs
    cases v with
    | hInt x => exact ⟨.num x, by simp [pushVal]⟩
    | hUInt x => exact ⟨.num (x : Int), by simp [pushVal]⟩
    | hFloat x => exact ⟨.num x, by simp [pushVal]⟩
    | hDouble x => exact ⟨.num x, by simp [pushVal]⟩
    | hBool b => exact ⟨.bool b, by simp [pushVal]⟩
    | hNullptr => exact ⟨.nil, by simp [pushVal]⟩
    | hString s => exact ⟨.str s, by simp [pushVal]⟩
    | hLuaArgument a =>
      rw [wrapperSafe] at hs
      simp only [Bool.not_eq_eq_eq_not, Bool.not_true, beq_eq_false_iff_ne, ne_eq] at hs
      exact ⟨a.value, by simp [pushVal, hs]⟩
    | hLuaArguments a => exact ⟨.table (indexedEntries 1 a.values), by simp [pushVal]⟩
    | hCVector2D x => exact ⟨.vec2 x, by simp [pushVal]⟩
    | hCVector x => exact ⟨.vec3 x, by simp [pushVal]⟩
    | hCVector4D x => exact ⟨.vec4 x, by simp [pushVal]⟩
    | hCMatrix x => exact ⟨.matrix x, by simp [pushVal]⟩
    | hEnum s => exact ⟨.str s, by simp [pushVal]⟩
    | hPtr p => exact ⟨elementVal p, by simp [pushVal]⟩
    | hSharedPtr p => exact ⟨elementVal p.get, by simp [pushVal]⟩
    | hUniquePtr p => exact ⟨elementVal p.get, by simp [pushVal]⟩
    | hVariant held =>
      rw [wrapperSafe] at hs
      have hsz : sizeOf held ≤ n := by simp at hv; omega
      obtain ⟨w, hw⟩ := ih held hsz hs
      exact ⟨w, by simp [pushVal, hw]⟩
    | hOptional o =>
      cases o with
      | none => exact ⟨.nil, by simp [pushVal]⟩
      | some v2 =>
        rw [wrapperSafe] at hs
        have hsz : sizeOf v2 ≤ n := by simp at hv; omega
        obtain ⟨w, hw⟩ := ih v2 hsz hs
        exact ⟨w, by simp [pushVal, hw]⟩
    | hArray es =>
      rw [wrapperSafe] at hs
      have H : ∀ e ∈ es, wrapperSafe e = true → ∃ w, pushVal e = some w := by
        intro e he
        have h1 := List.sizeOf_lt_of_mem he
        simp at hv
        exact ih e (by omega)
      obtain ⟨ws, hws⟩ := pushVals_isSome_of_safe es H hs
      exact ⟨.table (setIndexed [] 1 ws), by simp [pushVal, hws]⟩
    | hVector es =>
      rw [wrapperSafe] at hs
      have H : ∀ e ∈ es, wrapperSafe e = true → ∃ w, pushVal e = some w := by
        intro e he
        have h1 := List.sizeOf_lt_of_mem he
        simp at hv
        exact ih e (by omega)
      obtain ⟨ws, hws⟩ := pushVals_isSome_of_safe es H hs
      exact ⟨.table (setIndexed [] 1 ws), by simp [pushVal, hws]⟩
    | hMap kvs =>
      rw [wrapperSafe] at hs
      have H : ∀ kv ∈ kvs, (wrapperSafe kv.1 = true → ∃ w, pushVal kv.1 = some w) ∧
          (wrapperSafe kv.2 = true → ∃ w, pushVal kv.2 = some w) := by
        intro kv hkv
        have h1 := List.sizeOf_lt_of_mem hkv
        simp at hv
        obtain ⟨k, v2⟩ := kv
        simp at h1
        exact ⟨ih k (by omega), ih v2 (by omega)⟩
      obtain ⟨ps, hps⟩ := pushValPairs_isSome_of_safe kvs H hs
      exact ⟨.table (setPairs [] ps), by simp [pushVal, hps]⟩
    | hTuple es =>
      rw [wrapperSafe] at hs
      have H : ∀ e ∈ es, wrapperSafe e = true → ∃ w, pushVal e = some w := by
        intro e he
        have h1 := List.sizeOf_lt_of_mem he
        simp at hv
        exact ih e (by omega)
      obtain ⟨ws, hws⟩ := pushVals_isSome_of_safe es H hs
      exact ⟨.table (setIndexed [] 1 ws), by simp [pushVal, hws]⟩

theorem wrapperSafe_pushVal {v : HostVal} (h : wrapperSafe v = true) :
    ∃ w, pushVal v = some w :=
  wrapperSafe_pushVal_aux (sizeOf v) v le_rfl h

theorem lvBeq_num (i j : Int) : lvBeq (.num i) (.num j) = (i == j) := by
  simp [lvBeq]

/-- Every key of `t` is an integer key strictly below `i`. -/
def numKeysBelow (t : List (LuaVal × LuaVal)) (i : Int) : Prop :=
  ∀ kv ∈ t, ∃ j : Int, kv.1 = .num j ∧ j < i

theorem tableSet_fresh : ∀ (t : List (LuaVal × LuaVal)) (i : Int) (w : LuaVal),
    numKeysBelow t i → tableSet t (.num i) w = t ++ [(.num i, w)] := by
  intro t
  induction t with
  | nil => intro i w _; simp [tableSet]
  | cons kv rest ih =>
    intro i w h
    obtain ⟨k2, v2⟩ := kv
    obtain ⟨j, hj, hlt⟩ := h (k2, v2) (by simp)
    simp at hj
    subst hj
    have hne : lvBeq (.num j) (.num i) = false := by
      rw [lvBeq_num]
      simp
      omega
    simp [tableSet, hne]
    exact ih i w (fun kv hkv => h kv (by simp [hkv]))

theorem setIndexed_append : ∀ (ws : List LuaVal) (t : List (LuaVal × LuaVal)) (i : Int),
    numKeysBelow t i → setIndexed t i ws = t ++ indexedEntries i ws := by
  intro ws
  induction ws with
  | nil => intro t i _; simp [setIndexed, indexedEntries]
  | cons w ws ih =>
    intro t i h
    rw [setIndexed, tableSet_fresh t i w h, indexedEntries]
    have hfresh : numKeysBelow (t ++ [(LuaVal.num i, w)]) (i + 1) := by
      intro kv hkv
      rcases List.mem_append.mp hkv with h1 | h2
      · obtain ⟨j, hj, hlt⟩ := h kv h1
        exact ⟨j, hj, by omega⟩
      · simp at h2
        exact ⟨i, by simp [h2], by omega⟩
    rw [ih (t ++ [(LuaVal.num i, w)]) (i + 1) hfresh]
    simp

theorem setIndexed_nil_eq (ws : List LuaVal) (i : Int) :
    setIndexed [] i ws = indexedEntries i ws := by
  rw [setIndexed_append ws [] i (fun kv hkv => absurd hkv (by simp))]
  simp

theorem indexedEntries_length : ∀ (ws : List LuaVal) (i : Int),
    (indexedEntries i ws).length = ws.length := by
  intro ws
  induction ws with
  | nil => intro i; simp [indexedEntries]
  | cons w ws ih => intro i; simp [indexedEntries, ih]

theorem tableGet_indexedEntries : ∀ (ws : List LuaVal) (i : Int) (k : Nat) (hk : k < ws.length),
    tableGet (indexedEntries i ws) (.num (i + (k : Int))) = ws.get ⟨k, hk⟩ := by
  intro ws
  induction ws with
  | nil => intro i k hk; simp at hk
  | cons w ws ih =>
    intro i k hk
    cases k with
    | zero =>
      simp [indexedEntries, tableGet, lvBeq_num]
    | succ k2 =>
      rw [indexedEntries, tableGet]
      push_cast
      rw [if_neg ?hne]
      case hne =>
        rw [lvBeq_num]
        simp
        omega
      rw [show i + ((k2 : Int) + 1) = (i + 1) + (k2 : Int) by ring]
      rw [ih (i + 1) k2 (Nat.lt_of_succ_lt_succ hk)]
      simp

theorem pushVals_length : ∀ {es : List HostVal} {ws : List LuaVal},
    pushVals es = some ws → ws.length = es.length := by
  intro es
  induction es with
  | nil =>
    intro ws h
    simp [pushVals] at h
    subst h
    simp
  | cons e rest ih =>
    intro ws h
    cases hpe : pushVal e with
    | none => simp [pushVals, hpe] at h
    | some w =>
      cases hpr : pushVals rest with
      | none => simp [pushVals, hpe, hpr] at h
      | some ws2 =>
        have h2 : w :: ws2 = ws := by simp [pushVals, hpe, hpr] at h; exact h
        subst h2
        simp [ih hpr]

theorem pushVals_get : ∀ {es : List HostVal} {ws : List LuaVal}, pushVals es = some ws →
    ∀ (k : Nat) (hk : k < es.length) (hk2 : k < ws.length),
      pushVal (es.get ⟨k, hk⟩) = some (ws.get ⟨k, hk2⟩) := by
  intro es
  induction es with
  | nil => intro ws _ k hk; simp at hk
  | cons e rest ih =>
    intro ws h k hk hk2
    cases hpe : pushVal e with
    | none => simp [pushVals, hpe] at h
    | some w =>
      cases hpr : pushVals rest with
      | none => simp [pushVals, hpe, hpr] at h
      | some ws2 =>
        have h2 : w :: ws2 = ws := by simp [pushVals, hpe, hpr] at h; exact h
        subst h2
        cases k with
        | zero => simpa using hpe
        | succ k2 => simpa using ih hpr k2 (by simpa using hk) (by simpa using hk2)

/-- Claim C1: for every supported host type and value (the claim's family —
scalar, enum, reference, optional, variant, array, vector, map, tuple —
is exactly the `wrapperSafe` values, which in particular contain no
"no value"-tagged generic wrapper), one call to the dispatch entry point
`Push(L, v)` increases the Lua stack depth by exactly 1, regardless of
nesting depth: it completes normally, leaving exactly one new slot on top
of the unchanged original stack. -/
theorem push_stack_balance (v : HostVal) (L : LuaStack) (hsafe : wrapperSafe v = true) :
    ∃ w : LuaVal, Push L v = PRes.ok (w :: L) ∧ (w :: L).length = L.length + 1 := by
  obtain ⟨w, hw⟩ := wrapperSafe_pushVal hsafe
  exact ⟨w, push_ok_val hw L, by simp⟩

/-- Witness for C1 at the nested value `optional(some(vector [10])) `
pushed onto the empty stack. -/
theorem push_stack_balance_witness :
    ∃ w : LuaVal, Push [] (HostVal.hOptional (some (HostVal.hVector [HostVal.hInt 10]))) =
      PRes.ok (w :: []) ∧
      (w :: ([] : LuaStack)).length = ([] : LuaStack).length + 1 :=
  push_stack_balance (HostVal.hOptional (some (HostVal.hVector [HostVal.hInt 10]))) []
    (by simp [wrapperSafe, wrapperSafeList])

/-- Claim C2: invoking `Push` on a `CLuaArgument` whose tag is `LUA_TNONE`
aborts the operation with a non-recoverable fault (the modelled `throw`),
and the Lua stack is unchanged on this error path — no slot is produced,
and in particular the call never completes normally having pushed zero
values. -/
theorem push_tnone_wrapper_aborts (L : LuaStack) (a : CLuaArgument)
    (h : a.GetType = LUA_TNONE) : Push L (.hLuaArgument a) = PRes.err L := by
  simp [Push, h]

/-- Witness for C2 at a concrete `LUA_TNONE`-tagged wrapper on the empty
stack. -/
theorem push_tnone_wrapper_aborts_witness :
    Push [] (HostVal.hLuaArgument ⟨LUA_TNONE, LuaVal.nil⟩) = PRes.err [] :=
  push_tnone_wrapper_aborts [] ⟨LUA_TNONE, LuaVal.nil⟩ rfl

/-- Claim C3: pushing a `std::vector` or a `std::array` whose elements have
denotations `ws` (all element pushes succeed) produces one indexed Lua
table in which host element `e k` (0-based) is stored at Lua key `k + 1`:
the table entry at key `k + 1` is exactly the value pushed for `e k`. -/
theorem push_index_translation (es : List HostVal) (ws : List LuaVal) (L : LuaStack)
    (hws : pushVals es = some ws) :
    Push L (.hArray es) = PRes.ok (LuaVal.table (indexedEntries 1 ws) :: L) ∧
    Push L (.hVector es) = PRes.ok (LuaVal.table (indexedEntries 1 ws) :: L) ∧
    ∀ (k : Nat) (hk : k < es.length), ∃ w,
      pushVal (es.get ⟨k, hk⟩) = some w ∧
      tableGet (indexedEntries 1 ws) (.num ((k : Int) + 1)) = w := by
  have harr : pushVal (.hArray es) = some (.table (indexedEntries 1 ws)) := by
    simp [pushVal, hws, setIndexed_nil_eq]
  have hvec : pushVal (.hVector es) = some (.table (indexedEntries 1 ws)) := by
    simp [pushVal, hws, setIndexed_nil_eq]
  refine ⟨push_ok_val harr L, push_ok_val hvec L, ?_⟩
  intro k hk
  have hk2 : k < ws.length := by rw [pushVals_length hws]; exact hk
  refine ⟨ws.get ⟨k, hk2⟩, pushVals_get hws k hk hk2, ?_⟩
  rw [show ((k : Int) + 1) = (1 : Int) + (k : Int) by ring]
  exact tableGet_indexedEntries ws 1 k hk2

/-- Witness for C3 at the sequence `[10, 20, 30]` (spec scenario 2) on the
empty stack. -/
theorem push_index_translation_witness :
    Push [] (.hArray [.hInt 10, .hInt 20, .hInt 30]) =
      PRes.ok (LuaVal.table (indexedEntries 1 [.num 10, .num 20, .num 30]) :: []) ∧
    Push [] (.hVector [.hInt 10, .hInt 20, .hInt 30]) =
      PRes.ok (LuaVal.table (indexedEntries 1 [.num 10, .num 20, .num 30]) :: []) ∧
    ∀ (k : Nat) (hk : k < ([HostVal.hInt 10, .hInt 20, .hInt 30] : List HostVal).length), ∃ w,
      pushVal (([HostVal.hInt 10, .hInt 20, .hInt 30] : List HostVal).get ⟨k, hk⟩) = some w ∧
      tableGet (indexedEntries 1 [.num 10, .num 20, .num 30]) (.num ((k : Int) + 1)) = w :=
  push_index_translation [.hInt 10, .hInt 20, .hInt 30] [.num 10, .num 20, .num 30] []
    (by simp [pushVals, pushVal])

/-- Claim C4: pushing an empty optional produces exactly the Lua `nil`
value, and pushing an optional holding `v` is the very same operation as
pushing `v` directly. -/
theorem push_optional_roundtrip (v : HostVal) (L : LuaStack) :
    Push L (.hOptional (some v)) = Push L v ∧
    Push L (.hOptional none) = PRes.ok (LuaVal.nil :: L) := by
  constructor
  · simp [Push]
  · simp [Push, lua_pushnil]

/-- Claim C5: pushing a tuple whose component denotations are `ws` produces
exactly one indexed Lua table with exactly `n` entries (`n` the tuple's
arity), whose entry at key `i` (1-based, declaration order) is exactly the
value obtained by pushing the `i`-th component directly. -/
theorem push_tuple_arity (es : List HostVal) (ws : List LuaVal) (L : LuaStack)
    (hws : pushVals es = some ws) :
    Push L (.hTuple es) = PRes.ok (LuaVal.table (indexedEntries 1 ws) :: L) ∧
    (indexedEntries 1 ws).length = es.length ∧
    ∀ (k : Nat) (hk : k < es.length), ∃ w,
      pushVal (es.get ⟨k, hk⟩) = some w ∧
      tableGet (indexedEntries 1 ws) (.num ((k : Int) + 1)) = w := by
  have htup : pushVal (.hTuple es) = some (.table (indexedEntries 1 ws)) := by
    simp [pushVal, hws, setIndexed_nil_eq]
  refine ⟨push_ok_val htup L, ?_, ?_⟩
  · rw [indexedEntries_length, pushVals_length hws]
  · intro k hk
    have hk2 : k < ws.length := by rw [pushVals_length hws]; exact hk
    refine ⟨ws.get ⟨k, hk2⟩, pushVals_get hws k hk hk2, ?_⟩
    rw [show ((k : Int) + 1) = (1 : Int) + (k : Int) by ring]
    exact tableGet_indexedEntries ws 1 k hk2

/-- Witness for C5 at the tuple `(float, int, bool) = (2.0, 7, true)`
(the shape of spec scenario 4) on the empty stack. -/
theorem push_tuple_arity_witness :
    Push [] (.hTuple [.hFloat 2, .hInt 7, .hBool true]) =
      PRes.ok (LuaVal.table (indexedEntries 1 [.num 2, .num 7, .bool true]) :: []) ∧
    (indexedEntries 1 [LuaVal.num 2, .num 7, .bool true]).length =
      ([HostVal.hFloat 2, .hInt 7, .hBool true] : List HostVal).length ∧
    ∀ (k : Nat) (hk : k < ([HostVal.hFloat 2, .hInt 7, .hBool true] : List HostVal).length), ∃ w,
      pushVal (([HostVal.hFloat 2, .hInt 7, .hBool true] : List HostVal).get ⟨k, hk⟩) = some w ∧
      tableGet (indexedEntries 1 [.num 2, .num 7, .bool true]) (.num ((k : Int) + 1)) = w :=
  push_tuple_arity [.hFloat 2, .hInt 7, .hBool true] [.num 2, .num 7, .bool true] []
    (by simp [pushVals, pushVal])

/-- Claim C6: pushing a `std::variant` executes exactly the element pusher
of the currently-held alternative — the call is the very same operation as
pushing the held value directly (one branch, never zero, never more than
one), both as a stack operation and in denotation. -/
theorem push_variant_one_branch (v : HostVal) (L : LuaStack) :
    Push L (.hVariant v) = Push L v ∧ pushVal (.hVariant v) = pushVal v := by
  constructor
  · simp [Push]
  · simp [pushVal]

/-- Claim C7: pushing an empty `std::vector` produces one empty indexed
table (zero entries), which is not the `nil` value. -/
theorem push_empty_vector_table (L : LuaStack) :
    Push L (.hVector []) = PRes.ok (LuaVal.table [] :: L) ∧
    ([] : List (LuaVal × LuaVal)).length = 0 ∧
    LuaVal.table [] ≠ LuaVal.nil := by
  refine ⟨?_, rfl, by simp⟩
  simp [Push, pushVectorLoop, lua_newtable]

/-- Claim C8: the reference pushers (raw class pointer, shared_ptr,
unique_ptr) push exactly the Lua `nil` value for a null/empty reference —
and `nil` is not an opaque handle. -/
theorem push_null_reference_nil (L : LuaStack) :
    Push L (.hPtr none) = PRes.ok (LuaVal.nil :: L) ∧
    Push L (.hSharedPtr ⟨none⟩) = PRes.ok (LuaVal.nil :: L) ∧
    Push L (.hUniquePtr ⟨none⟩) = PRes.ok (LuaVal.nil :: L) ∧
    ∀ id : Nat, LuaVal.nil ≠ LuaVal.elem id := by
  refine ⟨?_, ?_, ?_, by simp⟩ <;>
    simp [Push, lua_pushelement, elementVal, SharedPtr.get, UniquePtr.get]

/-- Claim C9: pushing a shared or owning reference neither mutates the host
value nor transfers/alters its ownership: the state-threaded readings of
the two smart-pointer pushers return the host value identically (including
the owned pointer of the `unique_ptr`), and their stack effect is exactly
the dispatch entry point's. -/
theorem push_reference_preserves_host (L : LuaStack) (p : SharedPtr) (u : UniquePtr) :
    (PushSharedPtrWithHost L p).2 = p ∧
    (PushUniquePtrWithHost L u).2 = u ∧
    (PushUniquePtrWithHost L u).2.ptr = u.ptr ∧
    PRes.ok (PushSharedPtrWithHost L p).1 = Push L (.hSharedPtr p) ∧
    PRes.ok (PushUniquePtrWithHost L u).1 = Push L (.hUniquePtr u) := by
  refine ⟨rfl, rfl, rfl, ?_, ?_⟩ <;>
    simp [PushSharedPtrWithHost, PushUniquePtrWithHost, Push]

/-- Claim C10: pushing a `std::array` and a `std::vector` holding the same
elements in the same order produce equivalent results — the same
denotation, and the same resulting stack whenever either completes
normally — even though the array pusher stores via `lua_rawseti` into a
pre-sized table while the vector pusher pushes each numeric key and uses
`lua_settable`. -/
theorem push_array_vector_equiv (es : List HostVal) (L : LuaStack) :
    pushVal (.hArray es) = pushVal (.hVector es) ∧
    ∀ LR : LuaStack, (Push L (.hArray es) = PRes.ok LR ↔ Push L (.hVector es) = PRes.ok LR) := by
  have hv : pushVal (.hArray es) = pushVal (.hVector es) := by simp [pushVal]
  refine ⟨hv, ?_⟩
  intro LR
  cases hav : pushVal (.hArray es) with
  | some w =>
    have h1 := push_ok_val hav L
    have h2 := push_ok_val (show pushVal (.hVector es) = some w by rw [← hv]; exact hav) L
    rw [h1, h2]
  | none =>
    obtain ⟨L1, e1⟩ := push_err_total hav L
    obtain ⟨L2, e2⟩ :=
      push_err_total (show pushVal (.hVector es) = none by rw [← hv]; exact hav) L
    rw [e1, e2]
    simp
